import Mathlib

/-!
Verification of the pitch-averaging kernel `average_pitch` from
`nemo/collections/tts/models/fastpitch.py`.

Shallow embedding conventions:

* A pitch tensor of shape (B, F, T) is a `List (List (List ℚ))`; a duration
  tensor of shape (B, L) is a `List (List ℕ)`.  Rationals model the exact
  real-valued semantics of the floating-point arithmetic; duration entries are
  the non-negative integers the data model prescribes.
* `torch.cumsum(·, dim)` along the innermost axis is `cumsum`;
  `torch.nn.functional.pad(·, (1, 0))` is prepending the zero element.
* `torch.gather(c, 2, idx)` reads `c[b][f][idx[b][f][l]]`, raising a runtime
  error when an index is out of range; it is embedded as `List.get?`, with
  `Option` propagating the failure.  The batched/broadcast gather of the
  source is transcribed per batch row (`pitch[b]` paired with `durs[b]`),
  per formant row, per token: for matching shapes this is exactly the
  element-level computation the vectorised source performs.
* `torch.where(nelems == 0, nelems, sums / nelems)` keeps both branches but
  selects elementwise; only the selected branch is embedded, which is value
  equal (the discarded NaN of the zero branch never reaches the result).
-/

namespace FastPitch

/-- Propagate `Option` failure through an elementwise map, the way an
out-of-range index inside one element of a batched torch op fails the whole
call. -/
def optMap {α β : Type} (f : α → Option β) : List α → Option (List β)
  | [] => some []
  | x :: xs =>
    match f x, optMap f xs with
    | some y, some ys => some (y :: ys)
    | _, _ => none

/-- Running sums of a list continuing from accumulator `acc`
(`torch.cumsum` is `cumsumFrom 0`). -/
def cumsumFrom {α : Type} [Add α] (acc : α) : List α → List α
  | [] => []
  | x :: xs => (acc + x) :: cumsumFrom (acc + x) xs

/-- Inclusive prefix sums, the embedding of `torch.cumsum` along the
innermost axis. -/
def cumsum {α : Type} [Add α] [Zero α] (xs : List α) : List α :=
  cumsumFrom 0 xs

/-- Indicator of `pitch != 0.0`, as the integer a boolean tensor holds after
`torch.cumsum` promotes it. -/
def nonzeroInd (x : ℚ) : ℤ :=
  if x = 0 then 0 else 1

/-- One output element of `average_pitch`: the four gathers at the token's
start/end boundaries into the padded prefix sums, the subtraction, and the
guarded division `torch.where(pitch_nelems == 0.0, pitch_nelems,
pitch_sums / pitch_nelems)`.  `none` models the runtime error torch raises
when a gather index is out of range. -/
def tokenGather (cums : List ℚ) (nzcums : List ℤ) (ds de : ℕ) : Option ℚ :=
  match cums.get? de, cums.get? ds, nzcums.get? de, nzcums.get? ds with
  | some se, some ss, some ce, some cs =>
      some (if ce - cs = 0 then ((ce - cs : ℤ) : ℚ) else (se - ss) / ((ce - cs : ℤ) : ℚ))
  | _, _, _, _ => none

/-- The per-(batch, formant) slice of `average_pitch`:
`durs_cums_ends = cumsum durs`, `durs_cums_starts = pad(ends[:-1], (1,0))`,
`pitch_cums = pad(cumsum(pitch), (1,0))`,
`pitch_nonzero_cums = pad(cumsum(pitch != 0), (1,0))`, then the gathers at
each (start, end) pair. -/
def rowAvg (prow : List ℚ) (drow : List ℕ) : Option (List ℚ) :=
  let ends := cumsum drow
  let starts := 0 :: ends.dropLast
  let cums := (0 : ℚ) :: cumsum prow
  let nzcums := (0 : ℤ) :: cumsum (prow.map nonzeroInd)
  optMap (fun p => tokenGather cums nzcums p.1 p.2) (starts.zip ends)

/-- Embedding of `average_pitch(pitch, durs)` from
`nemo/collections/tts/models/fastpitch.py`: pitch of shape (B, F, T),
durations of shape (B, L), result of shape (B, F, L) or a runtime error
(`none`) when a gather index falls outside the padded prefix sums. -/
def average_pitch (pitch : List (List (List ℚ))) (durs : List (List ℕ)) :
    Option (List (List (List ℚ))) :=
  optMap (fun bd => optMap (fun prow => rowAvg prow bd.2) bd.1) (pitch.zip durs)

/-! Spec-side definitions, written from the specification's words: the value
at token `l` is the arithmetic mean of the non-zero entries of the row over
the half-open frame span `[sum durs[0..l-1], sum durs[0..l])`, and `0` when
the span holds no non-zero entry. -/

/-- The half-open slice `[s, e)` of a row. -/
def sliceOf (row : List ℚ) (s e : ℕ) : List ℚ :=
  (row.drop s).take (e - s)

/-- The non-zero (voiced) entries of a list of pitch samples. -/
def voiced (xs : List ℚ) : List ℚ :=
  xs.filter (fun x => decide (x ≠ 0))

/-- Specification of one output element: the arithmetic mean of the non-zero
entries over the span `[s, e)`, and `0` when there are none. -/
def specTokenAvg (row : List ℚ) (s e : ℕ) : ℚ :=
  let nz := voiced (sliceOf row s e)
  if nz.length = 0 then 0 else nz.sum / (nz.length : ℚ)

/-- The list of half-open token spans `(start, end)` determined by a duration
row, starting at frame `acc`. -/
def spans (acc : ℕ) : List ℕ → List (ℕ × ℕ)
  | [] => []
  | d :: rest => (acc, acc + d) :: spans (acc + d) rest

/-- Closed form of the result on well-formed input: per batch row, per
formant row, the spec-side average over each token span. -/
def avgSpec (pitch : List (List (List ℚ))) (durs : List (List ℕ)) :
    List (List (List ℚ)) :=
  (pitch.zip durs).map fun bd =>
    bd.1.map fun prow => (spans 0 bd.2).map fun p => specTokenAvg prow p.1 p.2

/-- Pitch tensor well-formedness: shape (B, F, T). -/
def WFPitch (pitch : List (List (List ℚ))) (B F T : ℕ) : Prop :=
  pitch.length = B ∧ ∀ m ∈ pitch, m.length = F ∧ ∀ r ∈ m, r.length = T

/-- Duration tensor well-formedness: shape (B, L). -/
def WFDurs (durs : List (List ℕ)) (B L : ℕ) : Prop :=
  durs.length = B ∧ ∀ r ∈ durs, r.length = L

/-- Every batch row's total duration fits in the time dimension. -/
def Covered (durs : List (List ℕ)) (T : ℕ) : Prop :=
  ∀ r ∈ durs, r.sum ≤ T

/-- Output element at (b, f, l). -/
def outEntry (res : List (List (List ℚ))) (b f l : ℕ) : ℚ :=
  (((res.getD b []).getD f []).getD l 0)

/-! Prefix-sum lemmas: reading the zero-padded cumulative sums. -/

theorem length_cumsumFrom {α : Type} [Add α] (acc : α) (xs : List α) :
    (cumsumFrom acc xs).length = xs.length := by
  induction xs generalizing acc with
  | nil => rfl
  | cons x xs ih => simp [cumsumFrom, ih]

theorem length_cumsum {α : Type} [Add α] [Zero α] (xs : List α) :
    (cumsum xs).length = xs.length :=
  length_cumsumFrom 0 xs

theorem get?_cumsumFrom {α : Type} [AddMonoid α] (xs : List α) :
    ∀ (acc : α) (i : ℕ), i ≤ xs.length →
      (acc :: cumsumFrom acc xs).get? i = some (acc + (xs.take i).sum) := by
  induction xs with
  | nil =>
    intro acc i hi
    have : i = 0 := Nat.le_zero.mp hi
    simp [this]
  | cons x xs ih =>
    intro acc i hi
    cases i with
    | zero => simp
    | succ i =>
      have h := ih (acc + x) i (by simpa using hi)
      simpa [cumsumFrom, add_assoc] using h

theorem get?_padded_cumsum {α : Type} [AddMonoid α] (xs : List α) (i : ℕ)
    (hi : i ≤ xs.length) :
    ((0 : α) :: cumsum xs).get? i = some ((xs.take i).sum) := by
  simpa using get?_cumsumFrom xs 0 i hi

theorem get?_padded_cumsum_none {α : Type} [Add α] [Zero α] (xs : List α) (i : ℕ)
    (hi : xs.length < i) :
    ((0 : α) :: cumsum xs).get? i = none := by
  rw [List.get?_eq_none]
  simp only [List.length_cons, length_cumsum]
  omega

/-! Lemmas on the token spans determined by a duration row. -/

theorem length_spans (drow : List ℕ) : ∀ acc, (spans acc drow).length = drow.length := by
  induction drow with
  | nil => intro acc; rfl
  | cons d rest ih => intro acc; simp [spans, ih]

theorem spans_zip (drow : List ℕ) :
    ∀ acc, (acc :: (cumsumFrom acc drow).dropLast).zip (cumsumFrom acc drow)
      = spans acc drow := by
  induction drow with
  | nil => intro acc; rfl
  | cons d rest ih =>
    intro acc
    cases rest with
    | nil => simp [cumsumFrom, spans]
    | cons d2 rest2 =>
      have h := ih (acc + d)
      simp only [cumsumFrom, spans] at h ⊢
      rw [List.dropLast_cons₂, List.zip_cons_cons, h]

theorem mem_spans_bound {drow : List ℕ} :
    ∀ {acc : ℕ} {p : ℕ × ℕ}, p ∈ spans acc drow →
      acc ≤ p.1 ∧ p.1 ≤ p.2 ∧ p.2 ≤ acc + drow.sum := by
  induction drow with
  | nil => intro acc p hp; cases hp
  | cons d rest ih =>
    intro acc p hp
    rcases List.mem_cons.mp hp with h | h
    · subst h
      refine ⟨le_rfl, Nat.le_add_right acc d, ?_⟩
      show acc + d ≤ acc + (d :: rest).sum
      simp only [List.sum_cons]
      omega
    · have := ih h
      simp only [List.sum_cons]
      omega

theorem get?_spans (drow : List ℕ) :
    ∀ (acc j : ℕ), j < drow.length →
      (spans acc drow).get? j
        = some (acc + (drow.take j).sum, acc + (drow.take (j + 1)).sum) := by
  induction drow with
  | nil => intro acc j hj; cases hj
  | cons d rest ih =>
    intro acc j hj
    cases j with
    | zero => simp [spans]
    | succ j =>
      have h := ih (acc + d) j (by simpa using hj)
      simp only [spans, List.get?_cons_succ, h, List.take_succ_cons, List.sum_cons]
      rw [add_assoc, add_assoc]

theorem last_span_mem (drow : List ℕ) (h : drow ≠ []) :
    ∀ acc, ∃ s, (s, acc + drow.sum) ∈ spans acc drow := by
  induction drow with
  | nil => cases h rfl
  | cons d rest ih =>
    intro acc
    cases rest with
    | nil => exact ⟨acc, by simp [spans]⟩
    | cons d2 rest2 =>
      obtain ⟨s, hs⟩ := ih (by simp) (acc + d)
      refine ⟨s, ?_⟩
      have heq : acc + (d :: d2 :: rest2).sum = acc + d + (d2 :: rest2).sum := by
        simp only [List.sum_cons]
        omega
      rw [show spans acc (d :: d2 :: rest2)
            = (acc, acc + d) :: spans (acc + d) (d2 :: rest2) from rfl, heq]
      exact List.mem_cons_of_mem _ hs

/-! Lemmas on the failure-propagating map. -/

theorem optMap_eq_map {α β : Type} (f : α → Option β) (g : α → β) :
    ∀ xs : List α, (∀ x ∈ xs, f x = some (g x)) → optMap f xs = some (xs.map g) := by
  intro xs
  induction xs with
  | nil => intro _; rfl
  | cons x xs ih =>
    intro h
    have hx := h x (by simp)
    have hxs := ih fun y hy => h y (by simp [hy])
    simp [optMap, hx, hxs]

theorem optMap_eq_none {α β : Type} (f : α → Option β) {xs : List α} {x : α}
    (hx : x ∈ xs) (hfx : f x = none) : optMap f xs = none := by
  induction xs with
  | nil => cases hx
  | cons y ys ih =>
    rcases List.mem_cons.mp hx with h | h
    · subst h
      simp [optMap, hfx]
    · have := ih h
      cases hfy : f y <;> simp [optMap, hfy, this]

/-! Lemmas on voiced (non-zero) entries. -/

theorem voiced_cons (x : ℚ) (xs : List ℚ) :
    voiced (x :: xs) = if x = 0 then voiced xs else x :: voiced xs := by
  by_cases hx : x = 0 <;> simp [voiced, List.filter_cons, hx]

theorem sum_map_nonzeroInd (xs : List ℚ) :
    (xs.map nonzeroInd).sum = ((voiced xs).length : ℤ) := by
  induction xs with
  | nil => rfl
  | cons x xs ih =>
    rw [List.map_cons, List.sum_cons, voiced_cons]
    by_cases hx : x = 0 <;> simp [nonzeroInd, hx, ih, add_comm]

theorem sum_voiced (xs : List ℚ) : (voiced xs).sum = xs.sum := by
  induction xs with
  | nil => rfl
  | cons x xs ih =>
    rw [voiced_cons, List.sum_cons]
    by_cases hx : x = 0 <;> simp [hx, ih]

/-! The gather at one token's boundaries computes the spec-side mean. -/

theorem tokenGather_eq_spec (prow : List ℚ) (s e : ℕ) (hse : s ≤ e)
    (he : e ≤ prow.length) :
    tokenGather ((0 : ℚ) :: cumsum prow) ((0 : ℤ) :: cumsum (prow.map nonzeroInd)) s e
      = some (specTokenAvg prow s e) := by
  have hs : s ≤ prow.length := le_trans hse he
  have hmlen : (prow.map nonzeroInd).length = prow.length := List.length_map _ _
  have h1 := get?_padded_cumsum prow e he
  have h2 := get?_padded_cumsum prow s hs
  have h3 := get?_padded_cumsum (prow.map nonzeroInd) e (by rw [hmlen]; exact he)
  have h4 := get?_padded_cumsum (prow.map nonzeroInd) s (by rw [hmlen]; exact hs)
  have hsplit : prow.take e = prow.take s ++ sliceOf prow s e := by
    conv_lhs => rw [show e = s + (e - s) from (Nat.add_sub_cancel' hse).symm]
    rw [List.take_add]
    rfl
  have hsum : (prow.take e).sum - (prow.take s).sum = (sliceOf prow s e).sum := by
    rw [hsplit, List.sum_append]; ring
  have hmsplit : (prow.map nonzeroInd).take e
      = (prow.map nonzeroInd).take s ++ (sliceOf prow s e).map nonzeroInd := by
    conv_lhs => rw [show e = s + (e - s) from (Nat.add_sub_cancel' hse).symm]
    rw [List.take_add]
    congr 1
    rw [← List.map_drop, ← List.map_take]
    rfl
  have hcount : ((prow.map nonzeroInd).take e).sum - ((prow.map nonzeroInd).take s).sum
      = ((voiced (sliceOf prow s e)).length : ℤ) := by
    rw [hmsplit, List.sum_append, ← sum_map_nonzeroInd]; ring
  simp only [tokenGather, h1, h2, h3, h4]
  rw [hcount, hsum]
  simp only [specTokenAvg]
  by_cases h0 : (voiced (sliceOf prow s e)).length = 0
  · simp [h0]
  · have hz : ((voiced (sliceOf prow s e)).length : ℤ) ≠ 0 := Int.natCast_ne_zero.mpr h0
    rw [if_neg hz, if_neg h0, ← sum_voiced]
    norm_cast

/-! The per-row computation on covered input, and its failure when the row
is overcommitted. -/

theorem spans_zip0 (drow : List ℕ) :
    ((0 : ℕ) :: (cumsum drow).dropLast).zip (cumsum drow) = spans 0 drow :=
  spans_zip drow 0

theorem rowAvg_eq_spec (prow : List ℚ) (drow : List ℕ) (h : drow.sum ≤ prow.length) :
    rowAvg prow drow
      = some ((spans 0 drow).map fun p => specTokenAvg prow p.1 p.2) := by
  show optMap _ (((0 : ℕ) :: (cumsum drow).dropLast).zip (cumsum drow)) = _
  rw [spans_zip0]
  refine optMap_eq_map _ _ _ (fun p hp => ?_)
  have hb := mem_spans_bound hp
  exact tokenGather_eq_spec prow p.1 p.2 hb.2.1 (le_trans (by simpa using hb.2.2) h)

theorem rowAvg_eq_none (prow : List ℚ) (drow : List ℕ) (h : prow.length < drow.sum) :
    rowAvg prow drow = none := by
  have hne : drow ≠ [] := by
    intro h0
    rw [h0] at h
    simp at h
  obtain ⟨s, hs⟩ := last_span_mem drow hne 0
  show optMap _ (((0 : ℕ) :: (cumsum drow).dropLast).zip (cumsum drow)) = none
  rw [spans_zip0]
  refine optMap_eq_none _ hs ?_
  show tokenGather ((0 : ℚ) :: cumsum prow) _ s (0 + drow.sum) = none
  have hnone : ((0 : ℚ) :: cumsum prow)[drow.sum]? = none := by
    rw [← List.get?_eq_getElem?]
    exact get?_padded_cumsum_none prow _ (by omega)
  simp [tokenGather, hnone]

/-! Main characterization: on well-formed covered input `average_pitch`
returns the closed spec-side form. -/

theorem average_pitch_eq_avgSpec {pitch : List (List (List ℚ))}
    {durs : List (List ℕ)} {B F T L : ℕ} (hp : WFPitch pitch B F T)
    (hd : WFDurs durs B L) (hcov : Covered durs T) :
    average_pitch pitch durs = some (avgSpec pitch durs) := by
  unfold average_pitch avgSpec
  refine optMap_eq_map _ _ _ (fun bd hbd => ?_)
  have hmem := List.of_mem_zip hbd
  refine optMap_eq_map _ _ _ (fun prow hprow => ?_)
  have hT : prow.length = T := ((hp.2 bd.1 hmem.1).2) prow hprow
  have hsum : bd.2.sum ≤ T := hcov bd.2 hmem.2
  exact rowAvg_eq_spec prow bd.2 (by omega)

/-! Indexing helpers. -/

theorem get?_eq_some_getD {α : Type} (l : List α) (d : α) {n : ℕ} (h : n < l.length) :
    l.get? n = some (l.getD n d) := by
  cases hg : l.get? n with
  | none => rw [List.get?_eq_none] at hg; omega
  | some a => rw [List.getD_eq_getD_get?, hg]; rfl

theorem zip_get?_eq {α β : Type} :
    ∀ (l1 : List α) (l2 : List β) (i : ℕ) (a : α) (b : β),
      l1.get? i = some a → l2.get? i = some b → (l1.zip l2).get? i = some (a, b) := by
  intro l1
  induction l1 with
  | nil => intro l2 i a b h1 _; simp at h1
  | cons x xs ih =>
    intro l2 i a b h1 h2
    cases l2 with
    | nil => simp at h2
    | cons y ys =>
      cases i with
      | zero =>
        simp only [List.get?_cons_zero, Option.some.injEq] at h1 h2
        simp [List.zip_cons_cons, h1, h2]
      | succ i =>
        simp only [List.get?_cons_succ] at h1 h2
        have h := ih ys i a b h1 h2
        simpa [List.zip_cons_cons] using h

theorem avgSpec_row {pitch : List (List (List ℚ))} {durs : List (List ℕ)}
    {B F T L : ℕ} (hp : WFPitch pitch B F T) (hd : WFDurs durs B L)
    {b f : ℕ} (hb : b < B) (hf : f < F) :
    ((avgSpec pitch durs).getD b []).getD f []
      = (spans 0 (durs.getD b [])).map
          (fun p => specTokenAvg ((pitch.getD b []).getD f []) p.1 p.2) := by
  have hbp : b < pitch.length := by rw [hp.1]; exact hb
  have hbd : b < durs.length := by rw [hd.1]; exact hb
  have h1 : pitch.get? b = some (pitch.getD b []) := get?_eq_some_getD _ _ hbp
  have h2 : durs.get? b = some (durs.getD b []) := get?_eq_some_getD _ _ hbd
  have hz := zip_get?_eq pitch durs b _ _ h1 h2
  have hA : (avgSpec pitch durs).getD b []
      = (pitch.getD b []).map fun prow =>
          (spans 0 (durs.getD b [])).map fun p => specTokenAvg prow p.1 p.2 := by
    unfold avgSpec
    rw [List.getD_eq_getD_get?, List.get?_map, hz]
    rfl
  rw [hA]
  have hmem : pitch.getD b [] ∈ pitch := List.get?_mem h1
  have hfm : f < (pitch.getD b []).length := by
    rw [(hp.2 _ hmem).1]; exact hf
  have h3 : (pitch.getD b []).get? f = some ((pitch.getD b []).getD f []) :=
    get?_eq_some_getD _ _ hfm
  rw [List.getD_eq_getD_get?, List.get?_map, h3]
  rfl

theorem avgSpec_entry {pitch : List (List (List ℚ))} {durs : List (List ℕ)}
    {B F T L : ℕ} (hp : WFPitch pitch B F T) (hd : WFDurs durs B L)
    {b f l : ℕ} (hb : b < B) (hf : f < F) (hl : l < L) :
    outEntry (avgSpec pitch durs) b f l
      = specTokenAvg ((pitch.getD b []).getD f [])
          (((durs.getD b []).take l).sum) (((durs.getD b []).take (l + 1)).sum) := by
  unfold outEntry
  rw [avgSpec_row hp hd hb hf]
  have hmem : durs.getD b [] ∈ durs :=
    List.get?_mem (get?_eq_some_getD _ _ (by rw [hd.1]; exact hb))
  have hld : l < (durs.getD b []).length := by
    rw [hd.2 _ hmem]; exact hl
  have hs := get?_spans (durs.getD b []) 0 l hld
  rw [List.getD_eq_getD_get?, List.get?_map, hs]
  simp

/-! Shifting spans, used for the conservation law. -/

theorem spans_shift (drow : List ℕ) :
    ∀ acc, spans acc drow = (spans 0 drow).map fun p => (acc + p.1, acc + p.2) := by
  induction drow with
  | nil => intro acc; rfl
  | cons d rest ih =>
    intro acc
    show (acc, acc + d) :: spans (acc + d) rest
        = ((0, 0 + d) :: spans (0 + d) rest).map fun p => (acc + p.1, acc + p.2)
    rw [List.map_cons, ih (acc + d), ih (0 + d), List.map_map]
    refine congrArg₂ List.cons (by simp) ?_
    apply List.map_congr_left
    intro p _
    simp only [Function.comp_apply, Prod.mk.injEq]
    omega

theorem specTokenAvg_shift (prow : List ℚ) (acc s e : ℕ) :
    specTokenAvg prow (acc + s) (acc + e) = specTokenAvg (prow.drop acc) s e := by
  have hs : sliceOf prow (acc + s) (acc + e) = sliceOf (prow.drop acc) s e := by
    unfold sliceOf
    have h1 : acc + e - (acc + s) = e - s := by omega
    rw [h1, List.drop_drop]
  simp only [specTokenAvg]
  rw [hs]

/-- Full-coverage conservation on one row: with every frame voiced and the
durations summing to the row length, the duration-weighted sum of per-token
averages is the total pitch mass of the row. -/
theorem weighted_sum_row :
    ∀ (drow : List ℕ) (prow : List ℚ), drow.sum = prow.length →
      (∀ x ∈ prow, x ≠ 0) →
      (List.zipWith (fun (d : ℕ) (a : ℚ) => (d : ℚ) * a) drow
        ((spans 0 drow).map fun p => specTokenAvg prow p.1 p.2)).sum = prow.sum := by
  intro drow
  induction drow with
  | nil =>
    intro prow hcover _
    have hnil : prow = [] := List.length_eq_zero.mp (by simpa using hcover.symm)
    subst hnil; rfl
  | cons d rest ih =>
    intro prow hcover hnz
    have hd_le : d ≤ prow.length := by
      simp only [List.sum_cons] at hcover; omega
    rw [show spans 0 (d :: rest) = (0, 0 + d) :: spans (0 + d) rest from rfl]
    rw [List.map_cons, List.zipWith_cons_cons, List.sum_cons]
    have htail : (spans (0 + d) rest).map
          (fun p => specTokenAvg prow p.1 p.2)
        = (spans 0 rest).map fun p => specTokenAvg (prow.drop d) p.1 p.2 := by
      rw [spans_shift rest (0 + d), List.map_map]
      apply List.map_congr_left
      intro p _
      show specTokenAvg prow (0 + d + p.1) (0 + d + p.2)
          = specTokenAvg (prow.drop d) p.1 p.2
      rw [Nat.zero_add]
      exact specTokenAvg_shift prow d p.1 p.2
    rw [htail]
    have hsum_rest : rest.sum = (prow.drop d).length := by
      rw [List.length_drop]
      simp only [List.sum_cons] at hcover
      omega
    have hrest := ih (prow.drop d) hsum_rest
      (fun x hx => hnz x (List.mem_of_mem_drop hx))
    rw [hrest]
    have hsl : sliceOf prow 0 (0 + d) = prow.take d := by simp [sliceOf]
    have hv : voiced (prow.take d) = prow.take d := by
      apply List.filter_eq_self.mpr
      intro a ha
      simpa using hnz a (List.mem_of_mem_take ha)
    have hlen : (prow.take d).length = d := by
      rw [List.length_take]; omega
    have hhead : (d : ℚ) * specTokenAvg prow 0 (0 + d) = (prow.take d).sum := by
      simp only [specTokenAvg]
      rw [hsl, hv, hlen]
      by_cases hd0 : d = 0
      · subst hd0; simp
      · rw [if_neg hd0]
        have hdq : (d : ℚ) ≠ 0 := Nat.cast_ne_zero.mpr hd0
        field_simp
    rw [hhead, List.sum_take_add_sum_drop]

/-! Agreement on the covered frames determines the result. -/

theorem specTokenAvg_congr_take {prow1 prow2 : List ℚ} {S s e : ℕ} (he : e ≤ S)
    (h : prow1.take S = prow2.take S) :
    specTokenAvg prow1 s e = specTokenAvg prow2 s e := by
  have key : ∀ p : List ℚ, sliceOf p s e = sliceOf (p.take S) s e := by
    intro p
    unfold sliceOf
    rw [List.drop_take, List.take_take, min_eq_left (by omega : e - s ≤ S - s)]
  simp only [specTokenAvg]
  rw [key prow1, key prow2, h]

theorem spansMap_congr (drow : List ℕ) {prow1 prow2 : List ℚ}
    (h : prow1.take drow.sum = prow2.take drow.sum) :
    ((spans 0 drow).map fun p => specTokenAvg prow1 p.1 p.2)
      = (spans 0 drow).map fun p => specTokenAvg prow2 p.1 p.2 := by
  apply List.map_congr_left
  intro p hp
  have hb := mem_spans_bound hp
  exact specTokenAvg_congr_take (by simpa using hb.2.2) h

/-! Range of one spec-side average. -/

theorem specTokenAvg_nonneg (row : List ℚ) (s e : ℕ)
    (h : ∀ x ∈ row, 0 ≤ x) : 0 ≤ specTokenAvg row s e := by
  simp only [specTokenAvg]
  by_cases h0 : (voiced (sliceOf row s e)).length = 0
  · simp [h0]
  · rw [if_neg h0]
    apply div_nonneg
    · apply List.sum_nonneg
      intro x hx
      have hx' : x ∈ sliceOf row s e := List.mem_of_mem_filter hx
      exact h x (List.mem_of_mem_drop (List.mem_of_mem_take hx'))
    · exact_mod_cast Nat.zero_le _

theorem specTokenAvg_bounds (row : List ℚ) (s e : ℕ) {lo hi : ℚ}
    (hlo : lo ≤ 0) (hhi : 0 ≤ hi)
    (h : ∀ x ∈ voiced (sliceOf row s e), lo ≤ x ∧ x ≤ hi) :
    lo ≤ specTokenAvg row s e ∧ specTokenAvg row s e ≤ hi := by
  simp only [specTokenAvg]
  by_cases h0 : (voiced (sliceOf row s e)).length = 0
  · rw [if_pos h0]
    exact ⟨hlo, hhi⟩
  · rw [if_neg h0]
    have hpos : (0 : ℚ) < ((voiced (sliceOf row s e)).length : ℚ) := by
      exact_mod_cast Nat.pos_of_ne_zero h0
    constructor
    · rw [le_div_iff hpos]
      have hle := List.card_nsmul_le_sum (voiced (sliceOf row s e)) lo
        (fun x hx => (h x hx).1)
      rw [nsmul_eq_mul] at hle
      rw [mul_comm]
      exact hle
    · rw [div_le_iff hpos]
      have hle := List.sum_le_card_nsmul (voiced (sliceOf row s e)) hi
        (fun x hx => (h x hx).2)
      rw [nsmul_eq_mul] at hle
      rw [mul_comm]
      exact hle

/-! Length of the closed form. -/

theorem length_avgSpec (pitch : List (List (List ℚ))) (durs : List (List ℕ)) :
    (avgSpec pitch durs).length = min pitch.length durs.length := by
  unfold avgSpec
  rw [List.length_map, List.length_zip]

/-- Claim C1: for every well-formed input (pitch (B, F, T); durations (B, L)
non-negative with per-row sum at most T), `average_pitch` returns at each
(b, f, l) the arithmetic mean of the non-zero entries of pitch[b, f, :] over
the half-open frame span [sum durs[b, 0..l-1], sum durs[b, 0..l]), and 0 when
that span contains no non-zero entry. -/
theorem claim_C1_spec_mean (pitch : List (List (List ℚ))) (durs : List (List ℕ))
    (B F T L : ℕ) (hp : WFPitch pitch B F T) (hd : WFDurs durs B L)
    (hcov : Covered durs T) :
    ∃ res, average_pitch pitch durs = some res ∧
      ∀ b f l, b < B → f < F → l < L →
        outEntry res b f l
          = specTokenAvg ((pitch.getD b []).getD f [])
              (((durs.getD b []).take l).sum) (((durs.getD b []).take (l + 1)).sum) :=
  ⟨avgSpec pitch durs, average_pitch_eq_avgSpec hp hd hcov,
    fun _ _ _ hb hf hl => avgSpec_entry hp hd hb hf hl⟩

/-- Claim C1 witness: the spec's concrete scenario, pitch [[[0, 2, 0, 4, 6]]]
with durations [[2, 1, 2]]. -/
theorem claim_C1_spec_mean_witness :
    ∃ res, average_pitch [[[0, 2, 0, 4, 6]]] [[2, 1, 2]] = some res ∧
      ∀ b f l, b < 1 → f < 1 → l < 3 →
        outEntry res b f l
          = specTokenAvg ((([[[0, 2, 0, 4, 6]]] : List (List (List ℚ))).getD b []).getD f [])
              ((([[2, 1, 2]].getD b []).take l).sum)
              ((([[2, 1, 2]].getD b []).take (l + 1)).sum) :=
  claim_C1_spec_mean [[[0, 2, 0, 4, 6]]] [[2, 1, 2]] 1 1 5 3
    (by unfold WFPitch; decide) (by unfold WFDurs; decide) (by unfold Covered; decide)

/-- Claim C2 counterexample: with T = 1 and a duration row summing to 2, the
gather index 2 is out of range for the padded prefix sums of length 2, so the
call fails (models the runtime error `torch.gather` raises); the result is
not a clamped value. -/
theorem claim_C2_gather_error_concrete :
    average_pitch [[[(1 : ℚ)]]] [[2]] = none := by
  norm_num [average_pitch, optMap, rowAvg, cumsum, cumsumFrom, tokenGather,
    nonzeroInd]

/-- Claim C2 (amended): when some batch row's duration sum exceeds the time
dimension T (and there is at least one formant channel), `average_pitch`
fails with an out-of-range gather — modelled as returning `none` — rather
than clamping reads and returning a result. -/
theorem claim_C2_overflow_fails (pitch : List (List (List ℚ)))
    (durs : List (List ℕ)) (B F T L : ℕ) (hp : WFPitch pitch B F T)
    (hd : WFDurs durs B L) (hF : 0 < F)
    (hover : ∃ drow ∈ durs, T < drow.sum) :
    average_pitch pitch durs = none := by
  obtain ⟨drow, hmem, hT⟩ := hover
  obtain ⟨b, hb⟩ := List.get?_of_mem hmem
  have hbd : b < durs.length := by
    by_contra hcon
    rw [List.get?_eq_none.mpr (by omega)] at hb
    cases hb
  have hbB : b < B := by rw [← hd.1]; exact hbd
  have hbp : b < pitch.length := by rw [hp.1]; exact hbB
  have hmp : pitch.get? b = some (pitch.getD b []) := get?_eq_some_getD _ _ hbp
  have hmemp : pitch.getD b [] ∈ pitch := List.get?_mem hmp
  have hzip : (pitch.zip durs).get? b = some (pitch.getD b [], drow) :=
    zip_get?_eq _ _ b _ _ hmp hb
  unfold average_pitch
  refine optMap_eq_none _ (List.get?_mem hzip) ?_
  have hne : pitch.getD b [] ≠ [] := by
    have hF' := (hp.2 _ hmemp).1
    intro hnil
    rw [hnil] at hF'
    simp at hF'
    omega
  obtain ⟨prow, hprow⟩ := List.exists_mem_of_ne_nil _ hne
  refine optMap_eq_none _ hprow ?_
  have hTl : prow.length = T := (hp.2 _ hmemp).2 prow hprow
  exact rowAvg_eq_none prow drow (by omega)

/-- Claim C2 witness: the amended statement at the concrete over-committed
input. -/
theorem claim_C2_overflow_fails_witness :
    average_pitch [[[(3 : ℚ), 4]]] [[1, 4]] = none :=
  claim_C2_overflow_fails [[[(3 : ℚ), 4]]] [[1, 4]] 1 1 2 2
    (by unfold WFPitch; decide) (by unfold WFDurs; decide) (by decide)
    ⟨[1, 4], by decide, by decide⟩

/-- Claim C3: for a batch row with full coverage (durations summing to T)
and every frame voiced, the duration-weighted sum of the per-token averages
equals the total pitch mass of the row. -/
theorem claim_C3_conservation (pitch : List (List (List ℚ)))
    (durs : List (List ℕ)) (B F T L b f : ℕ) (hp : WFPitch pitch B F T)
    (hd : WFDurs durs B L) (hcov : Covered durs T) (hb : b < B) (hf : f < F)
    (hfull : (durs.getD b []).sum = T)
    (hvoiced : ∀ x ∈ (pitch.getD b []).getD f [], x ≠ 0) :
    ∃ res, average_pitch pitch durs = some res ∧
      (List.zipWith (fun (d : ℕ) (a : ℚ) => (d : ℚ) * a) (durs.getD b [])
        ((res.getD b []).getD f [])).sum
        = ((pitch.getD b []).getD f []).sum := by
  refine ⟨avgSpec pitch durs, average_pitch_eq_avgSpec hp hd hcov, ?_⟩
  rw [avgSpec_row hp hd hb hf]
  apply weighted_sum_row
  · have hmemp : pitch.getD b [] ∈ pitch :=
      List.get?_mem (get?_eq_some_getD _ _ (by rw [hp.1]; exact hb))
    have hmemf : (pitch.getD b []).getD f [] ∈ pitch.getD b [] := by
      refine List.get?_mem (get?_eq_some_getD _ _ ?_)
      rw [(hp.2 _ hmemp).1]; exact hf
    have hTlen : ((pitch.getD b []).getD f []).length = T :=
      (hp.2 _ hmemp).2 _ hmemf
    rw [hfull, hTlen]
  · exact hvoiced

/-- Claim C3 witness: pitch [[[1, 2, 3]]], durations [[2, 1]]; the weighted
sum 2·(3/2) + 1·3 equals 1 + 2 + 3. -/
theorem claim_C3_conservation_witness :
    ∃ res, average_pitch [[[1, 2, 3]]] [[2, 1]] = some res ∧
      (List.zipWith (fun (d : ℕ) (a : ℚ) => (d : ℚ) * a) ([[2, 1]].getD 0 [])
        ((res.getD 0 []).getD 0 [])).sum
        = ((([[[1, 2, 3]]] : List (List (List ℚ))).getD 0 []).getD 0 []).sum :=
  claim_C3_conservation [[[1, 2, 3]]] [[2, 1]] 1 1 3 2 0 0
    (by unfold WFPitch; decide) (by unfold WFDurs; decide) (by unfold Covered; decide)
    (by decide) (by decide) (by decide) (by norm_num)

/-- Claim C4: wherever a token's span contains no non-zero pitch sample, the
output entry is exactly 0 — the division is only applied where the non-zero
count is non-zero (so no NaN or infinity can arise there). -/
theorem claim_C4_all_unvoiced_zero (pitch : List (List (List ℚ)))
    (durs : List (List ℕ)) (B F T L b f l : ℕ) (hp : WFPitch pitch B F T)
    (hd : WFDurs durs B L) (hcov : Covered durs T)
    (hb : b < B) (hf : f < F) (hl : l < L)
    (hz : ∀ x ∈ sliceOf ((pitch.getD b []).getD f [])
        (((durs.getD b []).take l).sum) (((durs.getD b []).take (l + 1)).sum),
        x = 0) :
    ∃ res, average_pitch pitch durs = some res ∧ outEntry res b f l = 0 := by
  refine ⟨avgSpec pitch durs, average_pitch_eq_avgSpec hp hd hcov, ?_⟩
  rw [avgSpec_entry hp hd hb hf hl]
  simp only [specTokenAvg]
  have hempty : voiced (sliceOf ((pitch.getD b []).getD f [])
      (((durs.getD b []).take l).sum) (((durs.getD b []).take (l + 1)).sum)) = [] := by
    apply List.filter_eq_nil.mpr
    intro a ha
    simp [hz a ha]
  rw [hempty]
  simp

/-- Claim C4 witness: token 1 of the spec's concrete scenario spans only the
zero frame at index 2, and its output is 0. -/
theorem claim_C4_all_unvoiced_zero_witness :
    ∃ res, average_pitch [[[0, 2, 0, 4, 6]]] [[2, 1, 2]] = some res ∧
      outEntry res 0 0 1 = 0 :=
  claim_C4_all_unvoiced_zero [[[0, 2, 0, 4, 6]]] [[2, 1, 2]] 1 1 5 3 0 0 1
    (by unfold WFPitch; decide) (by unfold WFDurs; decide)
    (by unfold Covered; decide) (by decide) (by decide) (by decide)
    (by norm_num [sliceOf])

/-- Claim C5: a token with duration 0 yields output exactly 0 for every
formant, regardless of the surrounding pitch values. -/
theorem claim_C5_zero_duration (pitch : List (List (List ℚ)))
    (durs : List (List ℕ)) (B F T L b f l : ℕ) (hp : WFPitch pitch B F T)
    (hd : WFDurs durs B L) (hcov : Covered durs T)
    (hb : b < B) (hf : f < F) (hl : l < L)
    (h0 : (durs.getD b []).getD l 0 = 0) :
    ∃ res, average_pitch pitch durs = some res ∧ outEntry res b f l = 0 := by
  refine ⟨avgSpec pitch durs, average_pitch_eq_avgSpec hp hd hcov, ?_⟩
  rw [avgSpec_entry hp hd hb hf hl]
  have hmem : durs.getD b [] ∈ durs :=
    List.get?_mem (get?_eq_some_getD _ _ (by rw [hd.1]; exact hb))
  have hld : l < (durs.getD b []).length := by
    rw [hd.2 _ hmem]; exact hl
  have heq : ((durs.getD b []).take (l + 1)).sum = ((durs.getD b []).take l).sum := by
    rw [List.take_succ, List.sum_append]
    have hsome : (durs.getD b [])[l]? = some 0 := by
      rw [← List.get?_eq_getElem?, get?_eq_some_getD _ 0 hld, h0]
    rw [hsome]
    simp
  rw [heq]
  simp only [specTokenAvg]
  have hnil : sliceOf ((pitch.getD b []).getD f [])
      (((durs.getD b []).take l).sum) (((durs.getD b []).take l).sum) = [] := by
    simp [sliceOf]
  rw [hnil]
  simp [voiced]

/-- Claim C5 witness: durations [[2, 0, 3]] give output 0 at the
zero-duration token 1. -/
theorem claim_C5_zero_duration_witness :
    ∃ res, average_pitch [[[0, 2, 0, 4, 6]]] [[2, 0, 3]] = some res ∧
      outEntry res 0 0 1 = 0 :=
  claim_C5_zero_duration [[[0, 2, 0, 4, 6]]] [[2, 0, 3]] 1 1 5 3 0 0 1
    (by unfold WFPitch; decide) (by unfold WFDurs; decide)
    (by unfold Covered; decide) (by decide) (by decide) (by decide) (by decide)

/-- Claim C6: a token whose span contains exactly one non-zero pitch sample
v (and any number of zeros) yields exactly v. -/
theorem claim_C6_single_voiced (pitch : List (List (List ℚ)))
    (durs : List (List ℕ)) (B F T L b f l : ℕ) (v : ℚ)
    (hp : WFPitch pitch B F T) (hd : WFDurs durs B L) (hcov : Covered durs T)
    (hb : b < B) (hf : f < F) (hl : l < L)
    (hv : voiced (sliceOf ((pitch.getD b []).getD f [])
        (((durs.getD b []).take l).sum) (((durs.getD b []).take (l + 1)).sum))
        = [v]) :
    ∃ res, average_pitch pitch durs = some res ∧ outEntry res b f l = v := by
  refine ⟨avgSpec pitch durs, average_pitch_eq_avgSpec hp hd hcov, ?_⟩
  rw [avgSpec_entry hp hd hb hf hl]
  simp only [specTokenAvg]
  rw [hv]
  simp

/-- Claim C6 witness: token 0 of the spec's concrete scenario spans frames
[0, 2) holding samples 0 and 2; the output is exactly 2. -/
theorem claim_C6_single_voiced_witness :
    ∃ res, average_pitch [[[0, 2, 0, 4, 6]]] [[2, 1, 2]] = some res ∧
      outEntry res 0 0 0 = 2 :=
  claim_C6_single_voiced [[[0, 2, 0, 4, 6]]] [[2, 1, 2]] 1 1 5 3 0 0 0 2
    (by unfold WFPitch; decide) (by unfold WFDurs; decide)
    (by unfold Covered; decide) (by decide) (by decide) (by decide)
    (by norm_num [voiced, sliceOf])

/-- The closed form only depends on the covered prefix of each formant row. -/
theorem avgSpec_congr {pitch1 pitch2 : List (List (List ℚ))}
    {durs : List (List ℕ)} {B F T L : ℕ} (hp1 : WFPitch pitch1 B F T)
    (hp2 : WFPitch pitch2 B F T) (hd : WFDurs durs B L)
    (hagree : ∀ b f, ((pitch1.getD b []).getD f []).take ((durs.getD b []).sum)
        = ((pitch2.getD b []).getD f []).take ((durs.getD b []).sum)) :
    avgSpec pitch1 durs = avgSpec pitch2 durs := by
  apply List.ext_get?
  intro b
  by_cases hbB : b < B
  · have hb1 : b < pitch1.length := by rw [hp1.1]; exact hbB
    have hb2 : b < pitch2.length := by rw [hp2.1]; exact hbB
    have hbd : b < durs.length := by rw [hd.1]; exact hbB
    have hm1 : pitch1.getD b [] ∈ pitch1 := List.get?_mem (get?_eq_some_getD _ _ hb1)
    have hm2 : pitch2.getD b [] ∈ pitch2 := List.get?_mem (get?_eq_some_getD _ _ hb2)
    have e1 : (avgSpec pitch1 durs).get? b
        = some ((pitch1.getD b []).map fun prow =>
            (spans 0 (durs.getD b [])).map fun p => specTokenAvg prow p.1 p.2) := by
      unfold avgSpec
      rw [List.get?_map,
        zip_get?_eq _ _ b _ _ (get?_eq_some_getD _ _ hb1) (get?_eq_some_getD _ _ hbd)]
      rfl
    have e2 : (avgSpec pitch2 durs).get? b
        = some ((pitch2.getD b []).map fun prow =>
            (spans 0 (durs.getD b [])).map fun p => specTokenAvg prow p.1 p.2) := by
      unfold avgSpec
      rw [List.get?_map,
        zip_get?_eq _ _ b _ _ (get?_eq_some_getD _ _ hb2) (get?_eq_some_getD _ _ hbd)]
      rfl
    rw [e1, e2]
    refine congrArg some ?_
    apply List.ext_get?
    intro f
    by_cases hfF : f < F
    · have hf1 : f < (pitch1.getD b []).length := by rw [(hp1.2 _ hm1).1]; exact hfF
      have hf2 : f < (pitch2.getD b []).length := by rw [(hp2.2 _ hm2).1]; exact hfF
      rw [List.get?_map, List.get?_map, get?_eq_some_getD _ [] hf1,
        get?_eq_some_getD _ [] hf2]
      simp only [Option.map_some']
      exact congrArg some (spansMap_congr _ (hagree b f))
    · rw [List.get?_eq_none.mpr, List.get?_eq_none.mpr]
      · rw [List.length_map, (hp2.2 _ hm2).1]; omega
      · rw [List.length_map, (hp1.2 _ hm1).1]; omega
  · rw [List.get?_eq_none.mpr, List.get?_eq_none.mpr]
    · rw [length_avgSpec, hp2.1, hd.1, min_self]; omega
    · rw [length_avgSpec, hp1.1, hd.1, min_self]; omega

/-- Claim C7: two pitch inputs of the same shape agreeing on every frame
below each batch row's duration sum produce identical results — frames
beyond the covered span are never read. -/
theorem claim_C7_unread_frames (pitch1 pitch2 : List (List (List ℚ)))
    (durs : List (List ℕ)) (B F T L : ℕ) (hp1 : WFPitch pitch1 B F T)
    (hp2 : WFPitch pitch2 B F T) (hd : WFDurs durs B L) (hcov : Covered durs T)
    (hagree : ∀ b f, ((pitch1.getD b []).getD f []).take ((durs.getD b []).sum)
        = ((pitch2.getD b []).getD f []).take ((durs.getD b []).sum)) :
    average_pitch pitch1 durs = average_pitch pitch2 durs := by
  rw [average_pitch_eq_avgSpec hp1 hd hcov, average_pitch_eq_avgSpec hp2 hd hcov]
  exact congrArg some (avgSpec_congr hp1 hp2 hd hagree)

/-- Claim C7 witness: two pitch rows differing only in the uncovered last
frame give identical outputs. -/
theorem claim_C7_unread_frames_witness :
    average_pitch [[[1, 2, 9]]] [[2]] = average_pitch [[[1, 2, 7]]] [[2]] :=
  claim_C7_unread_frames [[[1, 2, 9]]] [[[1, 2, 7]]] [[2]] 1 1 3 1
    (by unfold WFPitch; decide) (by unfold WFPitch; decide)
    (by unfold WFDurs; decide) (by unfold Covered; decide)
    (by intro b f; rcases b with _ | b <;> rcases f with _ | f <;> rfl)

/-- Claim C8: on shape (B, F, T) pitch and shape (B, L) durations, the
result has shape (B, F, L), independent of T. -/
theorem claim_C8_shape (pitch : List (List (List ℚ))) (durs : List (List ℕ))
    (B F T L : ℕ) (hp : WFPitch pitch B F T) (hd : WFDurs durs B L)
    (hcov : Covered durs T) :
    ∃ res, average_pitch pitch durs = some res ∧
      res.length = B ∧ ∀ m ∈ res, m.length = F ∧ ∀ r ∈ m, r.length = L := by
  refine ⟨avgSpec pitch durs, average_pitch_eq_avgSpec hp hd hcov, ?_, ?_⟩
  · rw [length_avgSpec, hp.1, hd.1, min_self]
  · intro m hm
    unfold avgSpec at hm
    obtain ⟨bd, hbd, rfl⟩ := List.mem_map.mp hm
    have hmem := List.of_mem_zip hbd
    refine ⟨?_, ?_⟩
    · rw [List.length_map, (hp.2 _ hmem.1).1]
    · intro r hr
      obtain ⟨prow, hprow, rfl⟩ := List.mem_map.mp hr
      rw [List.length_map, length_spans, hd.2 _ hmem.2]

/-- Claim C8 witness: the spec's concrete scenario has result shape
(1, 1, 3). -/
theorem claim_C8_shape_witness :
    ∃ res, average_pitch [[[0, 2, 0, 4, 6]]] [[2, 1, 2]] = some res ∧
      res.length = 1 ∧ ∀ m ∈ res, m.length = 1 ∧ ∀ r ∈ m, r.length = 3 :=
  claim_C8_shape [[[0, 2, 0, 4, 6]]] [[2, 1, 2]] 1 1 5 3
    (by unfold WFPitch; decide) (by unfold WFDurs; decide)
    (by unfold Covered; decide)

/-- Claim C10: with non-negative pitch every output entry is non-negative,
and in general every output entry lies between any lower bound and any upper
bound of the set consisting of 0 together with the voiced (non-zero) pitch
values of the corresponding span. -/
theorem claim_C10_range (pitch : List (List (List ℚ))) (durs : List (List ℕ))
    (B F T L : ℕ) (hp : WFPitch pitch B F T) (hd : WFDurs durs B L)
    (hcov : Covered durs T) :
    ∃ res, average_pitch pitch durs = some res ∧
      ((∀ m ∈ pitch, ∀ r ∈ m, ∀ x ∈ r, (0 : ℚ) ≤ x) →
        ∀ b f l, b < B → f < F → l < L → 0 ≤ outEntry res b f l) ∧
      (∀ b f l, b < B → f < F → l < L → ∀ lo hi : ℚ, lo ≤ 0 → 0 ≤ hi →
        (∀ x ∈ voiced (sliceOf ((pitch.getD b []).getD f [])
            (((durs.getD b []).take l).sum) (((durs.getD b []).take (l + 1)).sum)),
          lo ≤ x ∧ x ≤ hi) →
        lo ≤ outEntry res b f l ∧ outEntry res b f l ≤ hi) := by
  refine ⟨avgSpec pitch durs, average_pitch_eq_avgSpec hp hd hcov, ?_, ?_⟩
  · intro hpos b f l hb hf hl
    rw [avgSpec_entry hp hd hb hf hl]
    apply specTokenAvg_nonneg
    intro x hx
    have hmb : pitch.getD b [] ∈ pitch :=
      List.get?_mem (get?_eq_some_getD _ _ (by rw [hp.1]; exact hb))
    have hmf : (pitch.getD b []).getD f [] ∈ pitch.getD b [] := by
      refine List.get?_mem (get?_eq_some_getD _ _ ?_)
      rw [(hp.2 _ hmb).1]; exact hf
    exact hpos _ hmb _ hmf x hx
  · intro b f l hb hf hl lo hi hlo hhi hx
    rw [avgSpec_entry hp hd hb hf hl]
    exact specTokenAvg_bounds _ _ _ hlo hhi hx

/-- Claim C10 witness: the spec's concrete scenario, with bounds -1 and 10
on the voiced span values of token 2. -/
theorem claim_C10_range_witness :
    ∃ res, average_pitch [[[0, 2, 0, 4, 6]]] [[2, 1, 2]] = some res ∧
      ((∀ m ∈ ([[[0, 2, 0, 4, 6]]] : List (List (List ℚ))), ∀ r ∈ m, ∀ x ∈ r,
          (0 : ℚ) ≤ x) →
        ∀ b f l, b < 1 → f < 1 → l < 3 → 0 ≤ outEntry res b f l) ∧
      (∀ b f l, b < 1 → f < 1 → l < 3 → ∀ lo hi : ℚ, lo ≤ 0 → 0 ≤ hi →
        (∀ x ∈ voiced (sliceOf ((([[[0, 2, 0, 4, 6]]] :
              List (List (List ℚ))).getD b []).getD f [])
            ((([[2, 1, 2]].getD b []).take l).sum)
            ((([[2, 1, 2]].getD b []).take (l + 1)).sum)),
          lo ≤ x ∧ x ≤ hi) →
        lo ≤ outEntry res b f l ∧ outEntry res b f l ≤ hi) :=
  claim_C10_range [[[0, 2, 0, 4, 6]]] [[2, 1, 2]] 1 1 5 3
    (by unfold WFPitch; decide) (by unfold WFDurs; decide)
    (by unfold Covered; decide)

/-- Sanity: the specification's concrete scenario: pitch [[[0, 2, 0, 4, 6]]]
and durations [[2, 1, 2]] yield [[[2, 0, 5]]]. -/
theorem average_pitch_concrete_scenario :
    average_pitch [[[0, 2, 0, 4, 6]]] [[2, 1, 2]] = some [[[2, 0, 5]]] := by
  norm_num [average_pitch, optMap, rowAvg, cumsum, cumsumFrom, tokenGather,
    nonzeroInd]

end FastPitch
